import Mathlib

/-!
# walkai-client: line-bounded log-stream decoder, verified model

Shallow embedding of the incremental log-streaming reader of
`src/pages/PodDetail.tsx` (`streamLogs`, lines 187-257) and its twin in
`JobRunDetail` (`src/unnamed/part_005`, lines 795-870).  The two call sites
contain byte-for-byte identical buffering logic, embedded here once.

Modelling conventions:
* a byte is a `Nat` (the interesting ranges are below 256; the decoder
  maps anything else to the replacement character, as WHATWG does for
  invalid start bytes);
* decoded text is a `List Nat` of Unicode code points (`10` is `'\n'`,
  `0xFFFD` the replacement character); a line is such a list;
* `TextDecoder` (`decode(value, { stream: true })` / final `decode()`) is
  embedded as the WHATWG UTF-8 decoder state machine in replacement mode,
  threaded explicitly through each chunk.  The leading-BOM stripping of
  `TextDecoder` is not modelled; no claim depends on it;
* React state setters (`setLogLines`, `setLogError`) are modelled as the
  mutable session state plus an explicit list of emitted callbacks.
-/

set_option autoImplicit false

namespace WalkaiLog

/-- `const MAX_LOG_LINES = 500` (PodDetail.tsx line 14, part_005 line 600). -/
def MAX_LOG_LINES : Nat := 500

/-! ## The WHATWG incremental UTF-8 decoder (replacement error mode)

State carried by `new TextDecoder()` between `decode(chunk, {stream:true})`
calls: the partially assembled code point, how many continuation bytes have
been seen and are still needed, and the admissible range for the next
continuation byte. -/

structure DecState where
  codePoint : Nat
  bytesSeen : Nat
  bytesNeeded : Nat
  lowerB : Nat
  upperB : Nat
deriving DecidableEq, Repr

def DecState.init : DecState := ⟨0, 0, 0, 0x80, 0xBF⟩

/-- Processing one byte with no multi-byte sequence in progress
(`bytesNeeded = 0` case of the WHATWG UTF-8 decoder). -/
def decodeStartByte (b : Nat) : DecState × List Nat :=
  if b ≤ 0x7F then (DecState.init, [b])
  else if 0xC2 ≤ b ∧ b ≤ 0xDF then
    ({ codePoint := b % 0x20, bytesSeen := 0, bytesNeeded := 1,
       lowerB := 0x80, upperB := 0xBF }, [])
  else if 0xE0 ≤ b ∧ b ≤ 0xEF then
    ({ codePoint := b % 0x10, bytesSeen := 0, bytesNeeded := 2,
       lowerB := if b = 0xE0 then 0xA0 else 0x80,
       upperB := if b = 0xED then 0x9F else 0xBF }, [])
  else if 0xF0 ≤ b ∧ b ≤ 0xF4 then
    ({ codePoint := b % 0x8, bytesSeen := 0, bytesNeeded := 3,
       lowerB := if b = 0xF0 then 0x90 else 0x80,
       upperB := if b = 0xF4 then 0x8F else 0xBF }, [])
  else (DecState.init, [0xFFFD])

/-- Processing one byte of the stream.  When a continuation byte falls
outside the admissible range the WHATWG decoder emits a replacement
character, resets, and reprocesses the byte ("prepend byte to stream"). -/
def decodeByte (s : DecState) (b : Nat) : DecState × List Nat :=
  if s.bytesNeeded = 0 then decodeStartByte b
  else if s.lowerB ≤ b ∧ b ≤ s.upperB then
    let cp := s.codePoint * 64 + b % 64
    if s.bytesSeen + 1 = s.bytesNeeded then (DecState.init, [cp])
    else ({ codePoint := cp, bytesSeen := s.bytesSeen + 1,
            bytesNeeded := s.bytesNeeded, lowerB := 0x80, upperB := 0xBF }, [])
  else
    let r := decodeStartByte b
    (r.1, 0xFFFD :: r.2)

/-- `decoder.decode(value, { stream: true })`: push one chunk of bytes
through the decoder, returning the new carry state and the decoded text. -/
def decodePush (s : DecState) (bytes : List Nat) : DecState × List Nat :=
  bytes.foldl (fun acc b =>
    let r := decodeByte acc.1 b
    (r.1, acc.2 ++ r.2)) (s, [])

/-- The final argument-less `decoder.decode()`: flush the decoder; an
unfinished multi-byte sequence yields one replacement character. -/
def decodeFlush (s : DecState) : List Nat :=
  if s.bytesNeeded = 0 then [] else [0xFFFD]

/-! ## Splitting on newline

`pending.split('\n')` of JavaScript: the pieces of the text between the
newline characters, always at least one piece. -/

/-- Extend the first piece of a split by one leading character (the split
of a nonempty text whose head is not a newline). -/
def consHd (c : Nat) : List (List Nat) → List (List Nat)
  | [] => [[c]]
  | p :: ps => (c :: p) :: ps

/-- `text.split('\n')` on code-point lists. -/
def splitNl : List Nat → List (List Nat)
  | [] => [[]]
  | c :: rest => if c = 10 then [] :: splitNl rest else consHd c (splitNl rest)

/-! ## The session state and per-chunk processing

`streamLogs` keeps three pieces of state while the stream is open: the
React-held `logLines` buffer, the local `pending` string, and the
`TextDecoder` carry.  -/

structure Session where
  lines : List (List Nat)
  pending : List Nat
  dec : DecState
deriving DecidableEq, Repr

def Session.init : Session := ⟨[], [], DecState.init⟩

/-- `next.slice(-k)` of JavaScript on the over-full buffer.  `slice(-0)`
is `slice(0)`, the whole array; for `k ≥ 1` it is the last `k` elements. -/
def sliceLast (k : Nat) (l : List (List Nat)) : List (List Nat) :=
  if k = 0 then l else l.drop (l.length - k)

/-- The `setLogLines` updater, with `next = [...previous, ...parts]` inlined:
`next.length <= MAX_LOG_LINES ? next : next.slice(-MAX_LOG_LINES)`. -/
def updateLines (k : Nat) (prev parts : List (List Nat)) : List (List Nat) :=
  if (prev ++ parts).length ≤ k then prev ++ parts else sliceLast k (prev ++ parts)

/-- One iteration of the read loop on a delivered chunk, for an active
session:
```
pending += decoder.decode(value, { stream: true })
const parts = pending.split('\n')
pending = parts.pop() ?? ''
if (parts.length === 0) continue
setLogLines(previous => ...)
```
Returns the new session and the batch of newly completed lines (`[]` when
the chunk completed no line, in which case no callback fires). -/
def processChunk (k : Nat) (s : Session) (bytes : List Nat) :
    Session × List (List Nat) :=
  let d := decodePush s.dec bytes
  let pend := s.pending ++ d.2
  let pieces := splitNl pend
  let parts := pieces.dropLast
  let pending := pieces.getLastD []
  if parts = [] then (⟨s.lines, pending, d.1⟩, [])
  else (⟨updateLines k s.lines parts, pending, d.1⟩, parts)

/-- The whole read loop over the delivered chunks, also accumulating every
line appended to the buffer, in order. -/
def processChunks (k : Nat) (s : Session) (chunks : List (List Nat)) :
    Session × List (List Nat) :=
  chunks.foldl (fun acc c =>
    let r := processChunk k acc.1 c
    (r.1, acc.2 ++ r.2)) (s, [])

/-- After the loop ends gracefully (`done`):
```
const finalChunk = pending + decoder.decode()
if (finalChunk) setLogLines(previous => ...)
```
Returns the final session and the batch appended at completion. -/
def finishStream (k : Nat) (s : Session) : Session × List (List Nat) :=
  let fc := s.pending ++ decodeFlush s.dec
  if fc = [] then (s, [])
  else (⟨updateLines k s.lines [fc], s.pending, s.dec⟩, [fc])

/-- A complete uncancelled, error-free run: all chunks, then the final
flush.  The second component lists every line ever appended, in order. -/
def runSession (k : Nat) (chunks : List (List Nat)) :
    Session × List (List Nat) :=
  let r := processChunks k Session.init chunks
  let f := finishStream k r.1
  (f.1, r.2 ++ f.2)

/-- The text decoded during the streaming loop (before the final flush),
as a function of all bytes received. -/
def streamText (bytes : List Nat) : List Nat :=
  (decodePush DecState.init bytes).2

/-- The total decoded text of the byte stream, final flush included. -/
def totalText (bytes : List Nat) : List Nat :=
  streamText bytes ++ decodeFlush (decodePush DecState.init bytes).1

/-- Proof-side one-pass form of `split('\n')` + `pop`: the completed pieces
and the last (pending) piece, computed together.  Related to the faithful
`splitNl`-based computation by `splitParts_eq`. -/
def splitParts : List Nat → List (List Nat) × List Nat
  | [] => ([], [])
  | c :: rest =>
    let r := splitParts rest
    if c = 10 then ([] :: r.1, r.2)
    else
      match r.1 with
      | [] => ([], c :: r.2)
      | p :: ps => ((c :: p) :: ps, r.2)

/-- All lines a graceful run appends, as a function of the total decoded
text: the completed pieces, then the trailing piece when it is nonempty. -/
def allLinesOf (T : List Nat) : List (List Nat) :=
  (splitParts T).1 ++ if (splitParts T).2 = [] then [] else [(splitParts T).2]

/-! ## The session as an event machine

`streamLogs` interacts with its environment at its `await` points: each
read either delivers a chunk, reports `done`, or throws; the effect
cleanup (`isActive = false; controller.abort()`) can run between any two
of them.  An event trace interleaves these; the machine below mirrors the
source's control flow over such a trace.  The pre-loop failures
(`!response.ok`, missing `response.body` reader) and the in-loop throw all
reach `setLogError` the same way and are folded into one failing event
carrying its origin. -/

inductive FailTag where
  | httpStatus
  | noReader
  | transport
deriving DecidableEq, Repr

inductive Ev where
  | chunk (bytes : List Nat)
  | cancel
  | deliverDone
  | deliverFail (t : FailTag)
deriving DecidableEq, Repr

/-- A callback actually invoked: a `setLogLines` with the new buffer, or a
`setLogError`. -/
inductive Out where
  | linesUpdate (lines : List (List Nat))
  | errorMsg (t : FailTag)
deriving DecidableEq, Repr

/-- Machine state: the session data, the `isActive` flag (cleared together
with `controller.abort()` by the effect cleanup), and whether `streamLogs`
has already returned (after which only `cancel` can still occur and read
results are no longer delivered). -/
structure MState where
  sess : Session
  active : Bool
  closed : Bool
deriving DecidableEq, Repr

def MState.init : MState := ⟨Session.init, true, false⟩

/-- One environment event against the source's control flow:
* `cancel`: the cleanup runs (`isActive = false; controller.abort()`);
* `chunk`: one loop iteration; `pending` and the decoder always advance,
  but `if (!isActive || parts.length === 0) continue` skips the
  `setLogLines` call;
* `deliverDone`: the loop exits; `if (isActive && finalChunk)` guards the
  final `setLogLines`;
* `deliverFail`: a throw (or pre-loop failure) reaches the handler, which
  returns silently when aborted/inactive and otherwise calls
  `setLogError` once. -/
def step (k : Nat) (st : MState) (e : Ev) : MState × List Out :=
  match e with
  | .cancel => ({ st with active := false }, [])
  | .chunk bytes =>
    if st.closed then (st, [])
    else
      let d := decodePush st.sess.dec bytes
      let pend := st.sess.pending ++ d.2
      let pieces := splitNl pend
      let parts := pieces.dropLast
      let pending := pieces.getLastD []
      if st.active = false ∨ parts = [] then
        (⟨⟨st.sess.lines, pending, d.1⟩, st.active, st.closed⟩, [])
      else
        let nl := updateLines k st.sess.lines parts
        (⟨⟨nl, pending, d.1⟩, st.active, st.closed⟩, [Out.linesUpdate nl])
  | .deliverDone =>
    if st.closed then (st, [])
    else
      let fc := st.sess.pending ++ decodeFlush st.sess.dec
      if st.active = true ∧ fc ≠ [] then
        let nl := updateLines k st.sess.lines [fc]
        (⟨⟨nl, st.sess.pending, st.sess.dec⟩, st.active, true⟩, [Out.linesUpdate nl])
      else ({ st with closed := true }, [])
  | .deliverFail t =>
    if st.closed then (st, [])
    else if st.active = true then ({ st with closed := true }, [Out.errorMsg t])
    else ({ st with closed := true }, [])

/-- Run the machine from a given state, accumulating emitted callbacks. -/
def runFrom (k : Nat) (st : MState) (evs : List Ev) : MState × List Out :=
  evs.foldl (fun acc e =>
    let r := step k acc.1 e
    (r.1, acc.2 ++ r.2)) (st, [])

/-- Run one whole session over an event trace. -/
def runM (k : Nat) (evs : List Ev) : MState × List Out :=
  runFrom k MState.init evs

def isErrOut : Out → Bool
  | .errorMsg _ => true
  | .linesUpdate _ => false

/-- The callbacks emitted strictly after the first `setLogError`. -/
def afterFirstErr : List Out → List Out
  | [] => []
  | o :: rest => if isErrOut o then rest else afterFirstErr rest

/-! ## Basic lemmas: the decoder fold -/

theorem decodePush_go (bytes : List Nat) : ∀ (s : DecState) (o : List Nat),
    bytes.foldl (fun acc b =>
      let r := decodeByte acc.1 b
      (r.1, acc.2 ++ r.2)) (s, o)
      = ((decodePush s bytes).1, o ++ (decodePush s bytes).2) := by
  induction bytes with
  | nil => intro s o; simp [decodePush]
  | cons b rest ih =>
    intro s o
    simp only [decodePush, List.foldl_cons]
    rw [ih, ih]
    simp

theorem decodePush_append (s : DecState) (a b : List Nat) :
    decodePush s (a ++ b) =
      ((decodePush (decodePush s a).1 b).1,
       (decodePush s a).2 ++ (decodePush (decodePush s a).1 b).2) := by
  unfold decodePush
  rw [List.foldl_append]
  rw [decodePush_go a s [], List.nil_append]
  exact decodePush_go b (decodePush s a).1 (decodePush s a).2

theorem decodeFlush_no_nl (s : DecState) : (10 : Nat) ∉ decodeFlush s := by
  unfold decodeFlush
  split <;> simp

/-! ## Basic lemmas: splitting -/

theorem splitNl_ne_nil (l : List Nat) : splitNl l ≠ [] := by
  cases l with
  | nil => simp [splitNl]
  | cons c rest =>
    unfold splitNl
    split
    · simp
    · cases h : splitNl rest <;> simp [consHd, h]

theorem splitNl_splitParts (l : List Nat) :
    (splitNl l).dropLast = (splitParts l).1 ∧
      (splitNl l).getLastD [] = (splitParts l).2 := by
  induction l with
  | nil => exact ⟨rfl, rfl⟩
  | cons c rest ih =>
    obtain ⟨ih1, ih2⟩ := ih
    obtain ⟨p, ps, hs⟩ : ∃ p ps, splitNl rest = p :: ps := by
      cases h : splitNl rest with
      | nil => exact absurd h (splitNl_ne_nil rest)
      | cons p ps => exact ⟨p, ps, rfl⟩
    rw [hs] at ih1 ih2
    by_cases hc : c = 10
    · subst hc
      simp only [splitNl, if_pos rfl, hs, splitParts]
      refine ⟨?_, ?_⟩
      · simpa [List.dropLast] using ih1
      · simpa [List.getLastD_cons] using ih2
    · simp only [splitNl, if_neg hc, hs, consHd, splitParts]
      cases ps with
      | nil =>
        simp only [List.dropLast_single] at ih1
        rw [← ih1]
        simp only [List.getLastD_cons] at ih2
        refine ⟨by simp [List.dropLast_single], ?_⟩
        simp [List.getLastD_cons, ← ih2]
      | cons q qs =>
        simp only [List.dropLast_cons₂] at ih1
        rw [← ih1]
        refine ⟨by simp [List.dropLast_cons₂], ?_⟩
        simp only [List.getLastD_cons] at ih2 ⊢
        simpa using ih2

theorem splitParts_cons_nl (rest : List Nat) :
    splitParts (10 :: rest) = ([] :: (splitParts rest).1, (splitParts rest).2) := by
  simp [splitParts]

theorem splitParts_cons {c : Nat} (hc : c ≠ 10) (rest : List Nat) :
    splitParts (c :: rest) =
      (match (splitParts rest).1 with
       | [] => ([], c :: (splitParts rest).2)
       | p :: ps => ((c :: p) :: ps, (splitParts rest).2)) := by
  simp [splitParts, hc]

theorem splitParts_append (a b : List Nat) :
    splitParts (a ++ b) =
      ((splitParts a).1 ++ (splitParts ((splitParts a).2 ++ b)).1,
       (splitParts ((splitParts a).2 ++ b)).2) := by
  induction a with
  | nil => simp [splitParts]
  | cons c a ih =>
    by_cases hc : c = 10
    · subst hc
      rw [List.cons_append, splitParts_cons_nl, splitParts_cons_nl, ih]
      simp
    · rw [List.cons_append, splitParts_cons hc, splitParts_cons hc, ih]
      cases h1 : (splitParts a).1 with
      | nil =>
        simp only [h1, List.nil_append]
        rw [List.cons_append, splitParts_cons hc]
      | cons p ps =>
        simp [h1]

theorem splitParts_no_nl_parts (l : List Nat) :
    (∀ p ∈ (splitParts l).1, (10 : Nat) ∉ p) ∧ (10 : Nat) ∉ (splitParts l).2 := by
  induction l with
  | nil => simp [splitParts]
  | cons c rest ih =>
    obtain ⟨ih1, ih2⟩ := ih
    by_cases hc : c = 10
    · subst hc
      rw [splitParts_cons_nl]
      exact ⟨by simpa using ih1, ih2⟩
    · rw [splitParts_cons hc]
      cases h1 : (splitParts rest).1 with
      | nil =>
        refine ⟨by simp, ?_⟩
        simp only [List.mem_cons, not_or]
        exact ⟨fun h => hc h.symm, ih2⟩
      | cons p ps =>
        refine ⟨?_, ih2⟩
        intro q hq
        rcases List.mem_cons.mp hq with hq | hq
        · subst hq
          simp only [List.mem_cons, not_or]
          exact ⟨fun h => hc h.symm, ih1 p (h1 ▸ List.mem_cons_self p ps)⟩
        · exact ih1 q (h1 ▸ List.mem_cons_of_mem p hq)

theorem splitParts_of_no_nl {l : List Nat} (h : (10 : Nat) ∉ l) :
    splitParts l = ([], l) := by
  induction l with
  | nil => rfl
  | cons c rest ih =>
    have hc : c ≠ 10 := fun hc => h (hc ▸ List.mem_cons_self c rest)
    have hrest : (10 : Nat) ∉ rest := fun hm => h (List.mem_cons_of_mem c hm)
    rw [splitParts_cons hc, ih hrest]

theorem splitParts_ne_nilnil {l : List Nat} (h : l ≠ []) : splitParts l ≠ ([], []) := by
  cases l with
  | nil => exact absurd rfl h
  | cons c rest =>
    by_cases hc : c = 10
    · subst hc
      rw [splitParts_cons_nl]
      simp
    · rw [splitParts_cons hc]
      cases h1 : (splitParts rest).1 <;> simp

theorem splitParts_snd_nil_iff (l : List Nat) :
    (splitParts l).2 = [] ↔ l = [] ∨ l.getLast? = some 10 := by
  induction l with
  | nil => simp [splitParts]
  | cons c rest ih =>
    by_cases hc : c = 10
    · subst hc
      rw [splitParts_cons_nl, ih]
      cases rest with
      | nil => simp
      | cons d rs => simp [List.getLast?_cons_cons]
    · rw [splitParts_cons hc]
      cases h1 : (splitParts rest).1 with
      | nil =>
        simp only [h1]
        cases hr : rest with
        | nil => simp [splitParts, hc]
        | cons d rs =>
          subst hr
          constructor
          · intro h
            exact absurd h (by simp)
          · rintro (h | h)
            · exact absurd h (by simp)
            · rw [List.getLast?_cons_cons] at h
              have h2 : (splitParts (d :: rs)).2 = [] := ih.mpr (Or.inr h)
              exact absurd (Prod.ext h1 h2) (splitParts_ne_nilnil (by simp))
      | cons p ps =>
        simp only [h1]
        cases hr : rest with
        | nil =>
          rw [hr] at h1
          simp [splitParts] at h1
        | cons d rs =>
          subst hr
          rw [ih]
          simp [List.getLast?_cons_cons]

/-! ## Basic lemmas: the bounded buffer -/

theorem length_updateLines_le {k : Nat} (hk : k ≠ 0) (prev parts : List (List Nat)) :
    (updateLines k prev parts).length ≤ k := by
  unfold updateLines
  split
  · next h => exact h
  · unfold sliceLast
    rw [if_neg hk, List.length_drop]
    omega

theorem mem_updateLines {k : Nat} {prev parts : List (List Nat)} {x : List Nat}
    (h : x ∈ updateLines k prev parts) : x ∈ prev ∨ x ∈ parts := by
  unfold updateLines at h
  split at h
  · exact List.mem_append.mp h
  · unfold sliceLast at h
    split at h
    · exact List.mem_append.mp h
    · exact List.mem_append.mp (List.drop_subset _ _ h)

theorem updateLines_zero (prev parts : List (List Nat)) :
    updateLines 0 prev parts = prev ++ parts := by
  unfold updateLines
  split
  · rfl
  · unfold sliceLast
    simp

theorem updateLines_drop {k : Nat} (hk : k ≠ 0) (X P : List (List Nat)) :
    updateLines k (X.drop (X.length - k)) P = (X ++ P).drop ((X ++ P).length - k) := by
  rcases Nat.lt_or_ge X.length k with hlt | hge
  · have h0 : X.length - k = 0 := by omega
    rw [h0, List.drop_zero]
    unfold updateLines
    split
    · next h =>
      have h1 : (X ++ P).length - k = 0 := by omega
      rw [h1, List.drop_zero]
    · unfold sliceLast
      rw [if_neg hk]
  · have hA : (X.drop (X.length - k)).length = k := by
      rw [List.length_drop]
      omega
    unfold updateLines
    split
    · next h =>
      have hP : P = [] := by
        rw [List.length_append, hA] at h
        have : P.length = 0 := by omega
        exact List.length_eq_zero.mp this
      subst hP
      simp
    · next h =>
      unfold sliceLast
      rw [if_neg hk]
      rw [List.drop_append_eq_append_drop, List.drop_append_eq_append_drop,
        List.drop_drop]
      have e1 : (X.length - k) + ((X.drop (X.length - k) ++ P).length - k)
          = (X ++ P).length - k := by
        rw [List.length_append, List.length_append, hA]
        omega
      have e2 : (X.drop (X.length - k) ++ P).length - k - (X.drop (X.length - k)).length
          = (X ++ P).length - k - X.length := by
        rw [List.length_append, List.length_append, hA]
        omega
      rw [e1, e2]

/-! ## Lemmas: chunk processing -/

theorem processChunk_eq (k : Nat) (s : Session) (bytes : List Nat) :
    processChunk k s bytes =
      if (splitParts (s.pending ++ (decodePush s.dec bytes).2)).1 = [] then
        (⟨s.lines, (splitParts (s.pending ++ (decodePush s.dec bytes).2)).2,
          (decodePush s.dec bytes).1⟩, [])
      else
        (⟨updateLines k s.lines (splitParts (s.pending ++ (decodePush s.dec bytes).2)).1,
          (splitParts (s.pending ++ (decodePush s.dec bytes).2)).2,
          (decodePush s.dec bytes).1⟩,
         (splitParts (s.pending ++ (decodePush s.dec bytes).2)).1) := by
  simp only [processChunk]
  rw [(splitNl_splitParts (s.pending ++ (decodePush s.dec bytes).2)).1,
    (splitNl_splitParts (s.pending ++ (decodePush s.dec bytes).2)).2]

theorem processChunks_go (k : Nat) (chunks : List (List Nat)) :
    ∀ (s : Session) (o : List (List Nat)),
    chunks.foldl (fun acc c =>
      let r := processChunk k acc.1 c
      (r.1, acc.2 ++ r.2)) (s, o)
      = ((processChunks k s chunks).1, o ++ (processChunks k s chunks).2) := by
  induction chunks with
  | nil => intro s o; simp [processChunks]
  | cons c rest ih =>
    intro s o
    simp only [processChunks, List.foldl_cons]
    rw [ih, ih]
    simp

theorem processChunks_snoc (k : Nat) (s : Session) (chunks : List (List Nat))
    (c : List Nat) :
    processChunks k s (chunks ++ [c]) =
      ((processChunk k (processChunks k s chunks).1 c).1,
       (processChunks k s chunks).2 ++ (processChunk k (processChunks k s chunks).1 c).2) := by
  unfold processChunks
  rw [List.foldl_append]
  rw [processChunks_go k chunks s [], List.nil_append]
  rw [List.foldl_cons, List.foldl_nil]

/-! ## Characterization of a whole run

After any chunk sequence, the session state and every appended line are a
function of the concatenated bytes only: the decoder carry is the fold
over all bytes, `pending` is the trailing piece of the stream text, and
`lines` is the last-`k` window over all completed pieces. -/

theorem processChunks_char {k : Nat} (hk : k ≠ 0) (chunks : List (List Nat)) :
    processChunks k Session.init chunks =
      (⟨((splitParts (streamText chunks.flatten)).1).drop
          ((splitParts (streamText chunks.flatten)).1.length - k),
        (splitParts (streamText chunks.flatten)).2,
        (decodePush DecState.init chunks.flatten).1⟩,
       (splitParts (streamText chunks.flatten)).1) := by
  induction chunks using List.reverseRecOn with
  | nil => simp [processChunks, streamText, decodePush, splitParts, Session.init]
  | append_singleton cs c ih =>
    rw [processChunks_snoc, ih, processChunk_eq]
    have hflat : (cs ++ [c]).flatten = cs.flatten ++ c := by simp
    have hstream : streamText (cs.flatten ++ c)
        = streamText cs.flatten ++ (decodePush (decodePush DecState.init cs.flatten).1 c).2 := by
      unfold streamText
      rw [decodePush_append]
    have hdec1 : (decodePush DecState.init (cs.flatten ++ c)).1
        = (decodePush (decodePush DecState.init cs.flatten).1 c).1 := by
      rw [decodePush_append]
    rw [hflat, hstream, hdec1]
    rw [splitParts_append (streamText cs.flatten)
      (decodePush (decodePush DecState.init cs.flatten).1 c).2]
    by_cases hY : (splitParts ((splitParts (streamText cs.flatten)).2
        ++ (decodePush (decodePush DecState.init cs.flatten).1 c).2)).1 = []
    · rw [if_pos hY, hY]
      simp
    · rw [if_neg hY, updateLines_drop hk]

theorem totalText_splitParts (bytes : List Nat) :
    splitParts (totalText bytes)
      = ((splitParts (streamText bytes)).1,
         (splitParts (streamText bytes)).2
           ++ decodeFlush (decodePush DecState.init bytes).1) := by
  unfold totalText
  rw [splitParts_append]
  have hno : (10 : Nat) ∉ (splitParts (streamText bytes)).2
      ++ decodeFlush (decodePush DecState.init bytes).1 := by
    rw [List.mem_append]
    rintro (h | h)
    · exact (splitParts_no_nl_parts (streamText bytes)).2 h
    · exact decodeFlush_no_nl _ h
  rw [splitParts_of_no_nl hno]
  simp

theorem finishStream_eq (k : Nat) (s : Session) :
    finishStream k s =
      if s.pending ++ decodeFlush s.dec = [] then (s, [])
      else (⟨updateLines k s.lines [s.pending ++ decodeFlush s.dec], s.pending, s.dec⟩,
            [s.pending ++ decodeFlush s.dec]) := by
  simp only [finishStream]

theorem runSession_eq (k : Nat) (chunks : List (List Nat)) :
    runSession k chunks =
      ((finishStream k (processChunks k Session.init chunks).1).1,
       (processChunks k Session.init chunks).2
         ++ (finishStream k (processChunks k Session.init chunks).1).2) := by
  simp only [runSession]

theorem runSession_char {k : Nat} (hk : k ≠ 0) (chunks : List (List Nat)) :
    runSession k chunks =
      (⟨(allLinesOf (totalText chunks.flatten)).drop
          ((allLinesOf (totalText chunks.flatten)).length - k),
        (splitParts (streamText chunks.flatten)).2,
        (decodePush DecState.init chunks.flatten).1⟩,
       allLinesOf (totalText chunks.flatten)) := by
  rw [runSession_eq, processChunks_char hk, finishStream_eq]
  unfold allLinesOf
  rw [totalText_splitParts]
  dsimp only
  by_cases hfc : (splitParts (streamText chunks.flatten)).2
      ++ decodeFlush (decodePush DecState.init chunks.flatten).1 = []
  · rw [if_pos hfc, if_pos hfc]
    simp
  · rw [if_neg hfc, if_neg hfc, updateLines_drop hk]

/-! ## Session invariants used by the claims -/

theorem processChunk_inv {k : Nat} {s : Session} (bytes : List Nat)
    (h1 : ∀ l ∈ s.lines, (10 : Nat) ∉ l) (_h2 : (10 : Nat) ∉ s.pending) :
    (∀ l ∈ (processChunk k s bytes).1.lines, (10 : Nat) ∉ l)
      ∧ (10 : Nat) ∉ (processChunk k s bytes).1.pending := by
  rw [processChunk_eq]
  split
  · exact ⟨h1, (splitParts_no_nl_parts _).2⟩
  · refine ⟨?_, (splitParts_no_nl_parts _).2⟩
    intro l hl
    rcases mem_updateLines hl with hl | hl
    · exact h1 l hl
    · exact (splitParts_no_nl_parts _).1 l hl

theorem processChunks_inv {k : Nat} (chunks : List (List Nat)) :
    ∀ {s : Session}, (∀ l ∈ s.lines, (10 : Nat) ∉ l) → (10 : Nat) ∉ s.pending →
    (∀ l ∈ (processChunks k s chunks).1.lines, (10 : Nat) ∉ l)
      ∧ (10 : Nat) ∉ (processChunks k s chunks).1.pending := by
  induction chunks using List.reverseRecOn with
  | nil =>
    intro s h1 h2
    simpa [processChunks] using ⟨h1, h2⟩
  | append_singleton cs c ih =>
    intro s h1 h2
    rw [processChunks_snoc]
    have hx := ih h1 h2
    exact processChunk_inv c hx.1 hx.2

theorem runSession_inv (k : Nat) (chunks : List (List Nat)) :
    ∀ l ∈ (runSession k chunks).1.lines, (10 : Nat) ∉ l := by
  rw [runSession_eq, finishStream_eq]
  have hx := processChunks_inv (k := k) chunks (s := Session.init)
    (by simp [Session.init]) (by simp [Session.init])
  split
  · exact hx.1
  · intro l hl
    dsimp only at hl
    rcases mem_updateLines hl with hl | hl
    · exact hx.1 l hl
    · rw [List.mem_singleton] at hl
      subst hl
      intro hmem
      rcases List.mem_append.mp hmem with hmem | hmem
      · exact hx.2 hmem
      · exact decodeFlush_no_nl _ hmem

/-! ## The claims -/

/-- C2: in a run appending lines `L1..Ln` in order with `n > k > 0`, the
final retained buffer is exactly the last `k` appended lines, in their
original order (strictly FIFO eviction from the front).  Here
`(runSession k chunks).2` is the list of all appended lines in order, and
the final buffer is its last-`k` suffix. -/
theorem claim2_fifo_eviction (k : Nat) (chunks : List (List Nat)) (hk : 0 < k)
    (_hn : k < (runSession k chunks).2.length) :
    (runSession k chunks).1.lines
      = (runSession k chunks).2.drop ((runSession k chunks).2.length - k) := by
  rw [runSession_char (by omega : k ≠ 0)]

theorem claim2_fifo_eviction_witness :
    (runSession 2 [[97, 10, 98, 10, 99, 10, 100, 10]]).1.lines
      = (runSession 2 [[97, 10, 98, 10, 99, 10, 100, 10]]).2.drop
          ((runSession 2 [[97, 10, 98, 10, 99, 10, 100, 10]]).2.length - 2) :=
  claim2_fifo_eviction 2 [[97, 10, 98, 10, 99, 10, 100, 10]] (by decide) (by decide)

/-- C3: decoding is stateful across chunks; for any two partitions of the
same total byte sequence, the whole run is identical: same appended
completed lines, same final buffer, same pending text — including when a
multi-byte UTF-8 character is split across chunk boundaries. -/
theorem claim3_chunk_boundary_invariance (cs1 cs2 : List (List Nat))
    (h : cs1.flatten = cs2.flatten) :
    runSession MAX_LOG_LINES cs1 = runSession MAX_LOG_LINES cs2 := by
  rw [runSession_char (by decide : (MAX_LOG_LINES : Nat) ≠ 0),
    runSession_char (by decide : (MAX_LOG_LINES : Nat) ≠ 0), h]

theorem claim3_chunk_boundary_invariance_witness :
    runSession MAX_LOG_LINES [[0xC3], [0xA9, 10]]
        = runSession MAX_LOG_LINES [[0xC3, 0xA9, 10]]
      ∧ (runSession MAX_LOG_LINES [[0xC3], [0xA9, 10]]).1.lines = [[0xE9]] :=
  ⟨claim3_chunk_boundary_invariance [[0xC3], [0xA9, 10]] [[0xC3, 0xA9, 10]] (by decide),
   by decide⟩

/-- C4, counterexample: for the empty stream the total decoded text is
empty, hence does not end with `'\n'`, yet no final line is appended at
completion (the code appends only when `finalChunk` is truthy), so the
claim's "the trailing text is appended as exactly one final line" fails. -/
theorem claim4_flush_counterexample :
    (totalText (List.flatten ([] : List (List Nat)))).getLast? ≠ some 10
      ∧ (finishStream MAX_LOG_LINES
          (processChunks MAX_LOG_LINES Session.init ([] : List (List Nat))).1).2 = []
      ∧ (runSession MAX_LOG_LINES ([] : List (List Nat))).1.lines = [] := by
  refine ⟨by decide, ?_, ?_⟩ <;> rfl

set_option maxRecDepth 4096 in
/-- C4, amended: on graceful stream end, if the total decoded text ends
with `'\n'` no extra line is appended and the buffer is unchanged; if it
is nonempty and does not end with `'\n'`, the trailing text after the
last newline is appended as exactly one final (nonempty) line. -/
theorem claim4_flush_amended (chunks : List (List Nat)) :
    ((totalText chunks.flatten).getLast? = some 10 →
      (finishStream MAX_LOG_LINES (processChunks MAX_LOG_LINES Session.init chunks).1).2 = []
        ∧ (finishStream MAX_LOG_LINES (processChunks MAX_LOG_LINES Session.init chunks).1).1.lines
            = (processChunks MAX_LOG_LINES Session.init chunks).1.lines) ∧
    (totalText chunks.flatten ≠ [] → (totalText chunks.flatten).getLast? ≠ some 10 →
      (finishStream MAX_LOG_LINES (processChunks MAX_LOG_LINES Session.init chunks).1).2
          = [(splitParts (totalText chunks.flatten)).2]
        ∧ (splitParts (totalText chunks.flatten)).2 ≠ []) := by
  rw [processChunks_char (by decide : (MAX_LOG_LINES : Nat) ≠ 0), finishStream_eq]
  dsimp only
  have hfc : (splitParts (totalText chunks.flatten)).2
      = (splitParts (streamText chunks.flatten)).2
        ++ decodeFlush (decodePush DecState.init chunks.flatten).1 := by
    rw [totalText_splitParts]
  constructor
  · intro hlast
    have hnil : (splitParts (totalText chunks.flatten)).2 = [] :=
      (splitParts_snd_nil_iff _).mpr (Or.inr hlast)
    rw [hfc] at hnil
    rw [if_pos hnil]
    exact ⟨rfl, rfl⟩
  · intro hne hlast
    have hnn : (splitParts (totalText chunks.flatten)).2 ≠ [] := by
      intro h0
      rcases (splitParts_snd_nil_iff _).mp h0 with h | h
      · exact hne h
      · exact hlast h
    rw [hfc] at hnn
    rw [if_neg hnn]
    exact ⟨by rw [hfc], by rw [hfc]; exact hnn⟩

theorem claim4_flush_amended_witness :
    ((finishStream MAX_LOG_LINES (processChunks MAX_LOG_LINES Session.init [[97, 10]]).1).2 = []
      ∧ (finishStream MAX_LOG_LINES (processChunks MAX_LOG_LINES Session.init [[97, 10]]).1).1.lines
          = (processChunks MAX_LOG_LINES Session.init [[97, 10]]).1.lines) ∧
    ((finishStream MAX_LOG_LINES (processChunks MAX_LOG_LINES Session.init [[97, 10, 98]]).1).2
        = [(splitParts (totalText (List.flatten [[97, 10, 98]]))).2]
      ∧ (splitParts (totalText (List.flatten [[97, 10, 98]]))).2 ≠ []) :=
  ⟨(claim4_flush_amended [[97, 10]]).1 (by decide),
   (claim4_flush_amended [[97, 10, 98]]).2 (by decide) (by decide)⟩

/-- C9: a chunk whose decoded text completes no line (contains no `'\n'`,
given the invariant that `pending` holds none) triggers no callback and
leaves the retained buffer unchanged; only `pending` grows, by exactly
this chunk's decoded text. -/
theorem claim9_noop_chunk (k : Nat) (s : Session) (bytes : List Nat)
    (h1 : (10 : Nat) ∉ (decodePush s.dec bytes).2) (h2 : (10 : Nat) ∉ s.pending) :
    processChunk k s bytes
      = (⟨s.lines, s.pending ++ (decodePush s.dec bytes).2,
          (decodePush s.dec bytes).1⟩, []) := by
  rw [processChunk_eq]
  have hno : (10 : Nat) ∉ s.pending ++ (decodePush s.dec bytes).2 := by
    rw [List.mem_append]
    rintro (h | h)
    · exact h2 h
    · exact h1 h
  rw [splitParts_of_no_nl hno]
  simp

theorem claim9_noop_chunk_witness :
    processChunk 500 Session.init [97, 98]
      = (⟨Session.init.lines, Session.init.pending ++ (decodePush Session.init.dec [97, 98]).2,
          (decodePush Session.init.dec [97, 98]).1⟩, []) :=
  claim9_noop_chunk 500 Session.init [97, 98] (by decide) (by decide)

/-- C10: every string retained in the line buffer contains no `'\n'`,
after every mutation including the final flush; and empty strings (from
consecutive newlines) are retained as real lines and count against the
bound (here: with `k = 2`, input `"a\n\nb\n"` retains `["", "b"]`,
the empty line having evicted `"a"`). -/
theorem claim10_lines_no_newline :
    (∀ (k : Nat) (chunks : List (List Nat)) (l : List Nat),
        l ∈ (runSession k chunks).1.lines → (10 : Nat) ∉ l)
      ∧ (runSession 2 [[97, 10, 10, 98, 10]]).1.lines = [[], [98]] :=
  ⟨fun k chunks => runSession_inv k chunks, by decide⟩

theorem claim10_lines_no_newline_witness : (10 : Nat) ∉ [98] :=
  claim10_lines_no_newline.1 2 [[97, 10, 10, 98, 10]] [98] (by decide)

/-! ## Lemmas: the event machine -/

theorem runFrom_go (k : Nat) (evs : List Ev) : ∀ (st : MState) (o : List Out),
    evs.foldl (fun acc e =>
      let r := step k acc.1 e
      (r.1, acc.2 ++ r.2)) (st, o)
      = ((runFrom k st evs).1, o ++ (runFrom k st evs).2) := by
  induction evs with
  | nil => intro st o; simp [runFrom]
  | cons e rest ih =>
    intro st o
    simp only [runFrom, List.foldl_cons]
    rw [ih, ih]
    simp

theorem runFrom_cons (k : Nat) (st : MState) (e : Ev) (evs : List Ev) :
    runFrom k st (e :: evs) =
      ((runFrom k (step k st e).1 evs).1,
       (step k st e).2 ++ (runFrom k (step k st e).1 evs).2) := by
  simp only [runFrom, List.foldl_cons]
  rw [runFrom_go]
  simp [runFrom]

theorem runFrom_append (k : Nat) (st : MState) (a b : List Ev) :
    runFrom k st (a ++ b) =
      ((runFrom k (runFrom k st a).1 b).1,
       (runFrom k st a).2 ++ (runFrom k (runFrom k st a).1 b).2) := by
  unfold runFrom
  rw [List.foldl_append]
  rw [runFrom_go k a st [], List.nil_append]
  exact runFrom_go k b (runFrom k st a).1 (runFrom k st a).2

/-- A step from an inactive state emits nothing and stays inactive. -/
theorem step_inactive {k : Nat} {st : MState} (h : st.active = false) (e : Ev) :
    (step k st e).1.active = false ∧ (step k st e).2 = [] := by
  cases e with
  | cancel => exact ⟨rfl, rfl⟩
  | chunk bytes =>
    simp only [step]
    split
    · exact ⟨h, rfl⟩
    · rw [if_pos (Or.inl h)]
      exact ⟨h, rfl⟩
  | deliverDone =>
    simp only [step]
    split
    · exact ⟨h, rfl⟩
    · rw [if_neg (by simp [h])]
      exact ⟨h, rfl⟩
  | deliverFail t =>
    simp only [step]
    split
    · exact ⟨h, rfl⟩
    · rw [if_neg (by simp [h])]
      exact ⟨h, rfl⟩

theorem runFrom_inactive {k : Nat} (evs : List Ev) :
    ∀ {st : MState}, st.active = false → (runFrom k st evs).2 = [] := by
  induction evs with
  | nil => intro st _; rfl
  | cons e rest ih =>
    intro st h
    rw [runFrom_cons]
    have hs := step_inactive (k := k) h e
    rw [hs.2, ih hs.1]
    rfl

/-- A step from a closed state never touches the session and emits
nothing; the state stays closed. -/
theorem step_closed {k : Nat} {st : MState} (h : st.closed = true) (e : Ev) :
    (step k st e).1.sess = st.sess ∧ (step k st e).1.closed = true
      ∧ (step k st e).2 = [] := by
  cases e <;> simp [step, h]

theorem runFrom_closed {k : Nat} (evs : List Ev) :
    ∀ {st : MState}, st.closed = true →
    (runFrom k st evs).1.sess = st.sess ∧ (runFrom k st evs).1.closed = true
      ∧ (runFrom k st evs).2 = [] := by
  induction evs with
  | nil => intro st h; exact ⟨rfl, h, rfl⟩
  | cons e rest ih =>
    intro st h
    rw [runFrom_cons]
    have hs := step_closed (k := k) h e
    have hr := ih hs.2.1
    rw [hs.2.2]
    exact ⟨by rw [hr.1, hs.1], hr.2.1, by simp [hr.2.2]⟩

/-- Each step emits nothing, one buffer update, or one error; an error
closes the machine. -/
theorem step_out_form (k : Nat) (st : MState) (e : Ev) :
    (step k st e).2 = []
      ∨ (∃ l, (step k st e).2 = [Out.linesUpdate l])
      ∨ (∃ t, (step k st e).2 = [Out.errorMsg t] ∧ (step k st e).1.closed = true) := by
  cases e with
  | cancel => exact Or.inl rfl
  | chunk bytes =>
    simp only [step]
    split
    · exact Or.inl rfl
    · split
      · exact Or.inl rfl
      · exact Or.inr (Or.inl ⟨_, rfl⟩)
  | deliverDone =>
    simp only [step]
    split
    · exact Or.inl rfl
    · split
      · exact Or.inr (Or.inl ⟨_, rfl⟩)
      · exact Or.inl rfl
  | deliverFail t =>
    simp only [step]
    split
    · exact Or.inl rfl
    · split
      · exact Or.inr (Or.inr ⟨t, rfl, rfl⟩)
      · exact Or.inl rfl

theorem afterFirstErr_cons (o : Out) (rest : List Out) :
    afterFirstErr (o :: rest) = if isErrOut o then rest else afterFirstErr rest := rfl

theorem afterFirstErr_append_noerr {a : List Out}
    (h : ∀ o ∈ a, isErrOut o = false) (b : List Out) :
    afterFirstErr (a ++ b) = afterFirstErr b := by
  induction a with
  | nil => rfl
  | cons o rest ih =>
    have ho := h o (List.mem_cons_self o rest)
    rw [List.cons_append, afterFirstErr_cons, ho]
    simp only [Bool.false_eq_true, if_false]
    exact ih fun x hx => h x (List.mem_cons_of_mem o hx)

theorem runFrom_afe (k : Nat) (evs : List Ev) :
    ∀ {st : MState},
      afterFirstErr (runFrom k st evs).2 = []
        ∧ ((∃ t, Out.errorMsg t ∈ (runFrom k st evs).2)
            → (runFrom k st evs).1.closed = true) := by
  induction evs with
  | nil =>
    intro st
    exact ⟨rfl, fun ⟨t, ht⟩ => absurd ht (List.not_mem_nil _)⟩
  | cons e rest ih =>
    intro st
    rw [runFrom_cons]
    rcases step_out_form k st e with h0 | ⟨l, hl⟩ | ⟨t, ht, hcl⟩
    · rw [h0, List.nil_append]
      exact ih
    · rw [hl]
      have hi := @ih (step k st e).1
      constructor
      · rw [afterFirstErr_append_noerr]
        · exact hi.1
        · intro o ho
          rw [List.mem_singleton] at ho
          subst ho
          rfl
      · rintro ⟨u, hu⟩
        rcases List.mem_append.mp hu with hu | hu
        · rw [List.mem_singleton] at hu
          cases hu
        · exact hi.2 ⟨u, hu⟩
    · have hr := @runFrom_closed k rest (step k st e).1 hcl
      rw [ht, hr.2.2]
      refine ⟨by simp [afterFirstErr, isErrOut], fun _ => hr.2.1⟩

/-- A failing read delivery preserves the session and closes the machine. -/
theorem step_fail {k : Nat} (st : MState) (t : FailTag) :
    (step k st (Ev.deliverFail t)).1.sess = st.sess
      ∧ (step k st (Ev.deliverFail t)).1.closed = true := by
  simp only [step]
  split
  · next h => exact ⟨rfl, h⟩
  · split
    · exact ⟨rfl, rfl⟩
    · exact ⟨rfl, rfl⟩

theorem step_lines_le {k : Nat} (hk : k ≠ 0) (st : MState) (e : Ev)
    (h : st.sess.lines.length ≤ k) :
    (step k st e).1.sess.lines.length ≤ k
      ∧ ∀ l, Out.linesUpdate l ∈ (step k st e).2 → l.length ≤ k := by
  cases e with
  | cancel => exact ⟨h, fun l hl => absurd hl (List.not_mem_nil _)⟩
  | chunk bytes =>
    simp only [step]
    split
    · exact ⟨h, fun l hl => absurd hl (List.not_mem_nil _)⟩
    · split
      · exact ⟨h, fun l hl => absurd hl (List.not_mem_nil _)⟩
      · refine ⟨length_updateLines_le hk _ _, ?_⟩
        intro l hl
        rw [List.mem_singleton] at hl
        cases hl
        exact length_updateLines_le hk _ _
  | deliverDone =>
    simp only [step]
    split
    · exact ⟨h, fun l hl => absurd hl (List.not_mem_nil _)⟩
    · split
      · refine ⟨length_updateLines_le hk _ _, ?_⟩
        intro l hl
        rw [List.mem_singleton] at hl
        cases hl
        exact length_updateLines_le hk _ _
      · exact ⟨h, fun l hl => absurd hl (List.not_mem_nil _)⟩
  | deliverFail t =>
    simp only [step]
    split
    · exact ⟨h, fun l hl => absurd hl (List.not_mem_nil _)⟩
    · split
      · refine ⟨h, ?_⟩
        intro l hl
        rw [List.mem_singleton] at hl
        cases hl
      · exact ⟨h, fun l hl => absurd hl (List.not_mem_nil _)⟩

theorem runFrom_lines_le {k : Nat} (hk : k ≠ 0) (evs : List Ev) :
    ∀ {st : MState}, st.sess.lines.length ≤ k →
      (runFrom k st evs).1.sess.lines.length ≤ k
        ∧ ∀ l, Out.linesUpdate l ∈ (runFrom k st evs).2 → l.length ≤ k := by
  induction evs with
  | nil =>
    intro st h
    exact ⟨h, fun l hl => absurd hl (List.not_mem_nil _)⟩
  | cons e rest ih =>
    intro st h
    rw [runFrom_cons]
    have hs := step_lines_le hk st e h
    have hi := ih hs.1
    refine ⟨hi.1, ?_⟩
    intro l hl
    rcases List.mem_append.mp hl with hl | hl
    · exact hs.2 l hl
    · exact hi.2 l hl

/-- C1: with any bound `k > 0` (the code uses `k = 500`), after every
update to the retained line buffer its length is at most `k`: the final
buffer of any event trace is bounded, and every buffer ever passed to
`setLogLines` is bounded. -/
theorem claim1_buffer_bound (k : Nat) (evs : List Ev) (hk : 0 < k) :
    (runM k evs).1.sess.lines.length ≤ k
      ∧ ∀ l, Out.linesUpdate l ∈ (runM k evs).2 → l.length ≤ k :=
  runFrom_lines_le (by omega) evs (by simp [MState.init, Session.init])

theorem claim1_buffer_bound_witness :
    (runM 2 [Ev.chunk [97, 10, 98, 10, 99, 10]]).1.sess.lines.length ≤ 2 :=
  (claim1_buffer_bound 2 [Ev.chunk [97, 10, 98, 10, 99, 10]] (by decide)).1

/-- C5: once cancellation is invoked, no further `setLogLines` or
`setLogError` callback fires, even for chunk deliveries (or read results)
that were already in flight: the outputs of any trace are exactly the
outputs up to the cancel. -/
theorem claim5_no_output_after_cancel (k : Nat) (pre post : List Ev) :
    (runM k (pre ++ Ev.cancel :: post)).2 = (runM k pre).2 := by
  unfold runM
  rw [runFrom_append, runFrom_cons]
  have hc : (step k (runFrom k MState.init pre).1 Ev.cancel).2 = [] := rfl
  have ha : (step k (runFrom k MState.init pre).1 Ev.cancel).1.active = false := rfl
  rw [hc, runFrom_inactive (k := k) post ha]
  simp

/-- C6: the error callback fires at most once per session and is
terminal: in the emitted callback sequence of any trace, nothing at all
follows the first `setLogError` — no further buffer update and no second
error. -/
theorem claim6_error_terminal (k : Nat) (evs : List Ev) :
    afterFirstErr (runM k evs).2 = [] :=
  (runFrom_afe k evs).1

/-- C7: reporting an error leaves the already-buffered line sequence
unchanged: after a failing read delivery, the buffer equals what it was
just before the failure, whatever happens afterwards. -/
theorem claim7_error_preserves_lines (k : Nat) (pre : List Ev) (t : FailTag)
    (post : List Ev) :
    (runM k (pre ++ Ev.deliverFail t :: post)).1.sess.lines
      = (runM k pre).1.sess.lines := by
  unfold runM
  rw [runFrom_append, runFrom_cons]
  have hs := step_fail (k := k) (runFrom k MState.init pre).1 t
  have hr := runFrom_closed (k := k) post hs.2
  dsimp only
  rw [hr.1, hs.1]

/-- C8, counterexample: the code has no `maxLines` validation and no
`InvalidArgument` failure path; generalized to bound `0`, a session
starts normally, processes chunks, emits updates, and retains lines —
it does not fail and a session very much exists. -/
theorem claim8_no_invalid_argument_counterexample :
    (runM 0 [Ev.chunk [97, 10]]).2 = [Out.linesUpdate [[97]]]
      ∧ (runM 0 [Ev.chunk [97, 10]]).1.sess.lines = [[97]] := by
  decide

/-- C8, amended: the bound is the hard-coded positive constant
`MAX_LOG_LINES = 500`; no validation exists, and with bound `0` the
update logic does not fail but stops truncating entirely, because
JavaScript `slice(-0)` returns the whole array. -/
theorem claim8_no_validation_amended :
    MAX_LOG_LINES = 500
      ∧ ∀ prev parts, updateLines 0 prev parts = prev ++ parts :=
  ⟨rfl, updateLines_zero⟩

end WalkaiLog
